import Mathlib

/-!
Verification of `scripts/spm_encode_multiprocess.py`: a command-line utility
that tokenizes parallel text corpora with a pretrained sentencepiece model,
using an order-preserving multiprocessing pool, optionally filtering rows by
token count.

The Python source is shallowly embedded below: lines are `String`s, files are
`List String`, the opaque sentencepiece model is an abstract structure of
encoding functions, the worker pool is modelled as a chunked ordered map with
an arbitrary chunk-to-worker schedule, and the output streams are
`List String` accumulators (one list of written lines per output file).
-/

namespace Spm

/-- Python `str.strip()` default whitespace set (ASCII part): space, tab,
newline, carriage return, vertical tab, form feed. -/
def isPySpace (c : Char) : Bool :=
  c = ' ' || c = '\t' || c = '\n' || c = '\r' || c = '\x0b' || c = '\x0c'

/-- Python `line.strip()`: drop leading and trailing whitespace. -/
def stripStr (s : String) : String :=
  ⟨((s.data.dropWhile isPySpace).reverse.dropWhile isPySpace).reverse⟩

/-- Embeds the inner function `encode_line` of `encode_lines` in the source:
strip the line; if non-empty, tokenize it and apply the validity predicate,
returning the space-joined tokens on success and a `none` placeholder with the
filtered flag on failure; an empty stripped line returns the empty string with
the empty flag. The triple is (encoded line, is filtered, is empty). -/
def encode_line (encode : String → List String) (valid : List String → Bool)
    (line : String) : Option String × Bool × Bool :=
  let line := stripStr line
  if line.length > 0 then
    let line_toks := encode line
    if valid line_toks then
      (some (String.intercalate " " line_toks), false, false)
    else
      (none, true, false)
  else
    (some "", false, true)

/-- Embeds `encode_lines` in the source: map `encode_line` over the row and
aggregate the per-position flags with `any`. -/
def encode_lines (encode : String → List String) (valid : List String → Bool)
    (lines : List String) : List (Option String) × Bool × Bool :=
  let results := lines.map (encode_line encode valid)
  (results.map (fun r => r.1),
   results.any (fun r => r.2.1),
   results.any (fun r => r.2.2))

/-- The command-line arguments relevant to the encoding logic. -/
structure Args where
  min_len : Option Int
  max_len : Option Int
  keep_empty : Bool
deriving DecidableEq

/-- Embeds `valid_length_filter` in the source: inclusive min/max bounds on
the token count, each bound checked only when present. -/
def valid_length_filter (args : Args) (line : List String) : Bool :=
  (match args.min_len with
   | none => true
   | some n => decide ((n : Int) ≤ (line.length : Int))) &&
  (match args.max_len with
   | none => true
   | some n => decide ((line.length : Int) ≤ (n : Int)))

/-- Embeds `valid_true` in the source. -/
def valid_true (_args : Args) (_lines : List String) : Bool :=
  true

/-- The predicate selection in `main`: the length filter when at least one
bound is given, otherwise the always-true predicate. -/
def mkValid (args : Args) : List String → Bool :=
  if args.min_len.isSome || args.max_len.isSome then
    valid_length_filter args
  else
    valid_true args

/-- Spec-side description (from section 4.2 of the spec) of the per-position
output: empty stripped line gives the empty string, an accepted token sequence
gives the space-joined tokens, a rejected one gives a `none` placeholder. -/
def spec_position_output (encode : String → List String)
    (valid : List String → Bool) (line : String) : Option String :=
  if (stripStr line).length = 0 then some ""
  else if valid (encode (stripStr line)) then
    some (String.intercalate " " (encode (stripStr line)))
  else none

/-- Spec-side description of a position being marked filtered: non-empty after
stripping and rejected by the length predicate. -/
def spec_position_filtered (encode : String → List String)
    (valid : List String → Bool) (line : String) : Bool :=
  !((stripStr line).length = 0) && !(valid (encode (stripStr line)))

/-- Spec-side description of a position being marked empty: the line is empty
after stripping. -/
def spec_position_empty (line : String) : Bool :=
  (stripStr line).length = 0

/-- The two counters kept in the `stats` dict of `main`. -/
structure Stats where
  num_empty : Nat
  num_filtered : Nat
deriving DecidableEq

/-- Python `print(x, file=h)` renders `None` as the string None. In the
source this case is unreachable from the write branch, but the embedding
keeps `print`'s actual rendering. -/
def pyShow (e : Option String) : String :=
  match e with
  | some s => s
  | none => "None"

/-- The write branch of the aggregation loop in `main`:
`for enc_line, output_h in zip(enc_lines, outputs): print(enc_line, ...)`.
Each output stream paired by `zip` receives one more line; streams beyond the
`zip` truncation are unchanged. -/
def writeRow (enc_lines : List (Option String))
    (outputs : List (List String)) : List (List String) :=
  ((enc_lines.zip outputs).map (fun p => p.2 ++ [pyShow p.1])) ++
    outputs.drop enc_lines.length

/-- One iteration of the aggregation loop in `main` (lines 138-145 of the
source): filtered rows bump `num_filtered`, otherwise empty rows bump
`num_empty` unless `--keep-empty` is set, otherwise the row is written. -/
def step (keep_empty : Bool) (acc : Stats × List (List String))
    (res : List (Option String) × Bool × Bool) : Stats × List (List String) :=
  if res.2.1 then
    ({ acc.1 with num_filtered := acc.1.num_filtered + 1 }, acc.2)
  else if res.2.2 && !keep_empty then
    ({ acc.1 with num_empty := acc.1.num_empty + 1 }, acc.2)
  else
    (acc.1, writeRow res.1 acc.2)

/-- The whole aggregation loop: fold `step` over the results consumed from
the pool in submission order. -/
def consume (keep_empty : Bool)
    (results : List (List (Option String) × Bool × Bool))
    (init : Stats × List (List String)) : Stats × List (List String) :=
  results.foldl (step keep_empty) init

/-- Length of the shortest input file, i.e. the number of rows produced by
Python `zip(*inputs)` (0 when there are no files, like `zip()`). -/
def minLen (files : List (List String)) : Nat :=
  match files with
  | [] => 0
  | f :: fs => fs.foldl (fun a g => min a g.length) f.length

/-- Embeds `zip(*inputs)`: the list of rows, row `i` holding line `i` of
every input file, truncated to the shortest file. -/
def zipRows (files : List (List String)) : List (List String) :=
  (List.range (minLen files)).map (fun i => files.map (fun f => f.getD i ""))

/-- The processing pipeline of `main` after the argument checks, run
sequentially: zip the input files into rows, encode every row, and fold the
aggregation loop starting from zero counters and `nouts` empty output
streams. -/
def runMain (encode : String → List String) (args : Args)
    (inputs : List (List String)) (nouts : Nat) : Stats × List (List String) :=
  consume args.keep_empty
    ((zipRows inputs).map (encode_lines encode (mkValid args)))
    (⟨0, 0⟩, List.replicate nouts [])

/-- Embeds `main` including the eager assertion
`assert len(args.inputs) == len(args.outputs)`: on mismatch the run aborts
(`Except.error`) before any input is read or output written. -/
def mainRun (encode : String → List String) (args : Args)
    (inputs : List (List String)) (noutputs : Nat) :
    Except String (Stats × List (List String)) :=
  if inputs.length = noutputs then
    Except.ok (runMain encode args inputs noutputs)
  else
    Except.error "number of input and output paths should match"

/-- A row reaches the write branch iff it is neither filtered nor an empty
row dropped by the default keep-empty setting. -/
def rowWritten (keep_empty : Bool)
    (res : List (Option String) × Bool × Bool) : Bool :=
  !res.2.1 && (!res.2.2 || keep_empty)

/-- The opaque pretrained sentencepiece model: a deterministic tokenizer into
surface pieces or integer ids. -/
structure SentencePieceProcessor where
  EncodeAsPieces : String → List String
  EncodeAsIds : String → List Int

/-- Embeds `encode_as_pieces` in the source. -/
def encode_as_pieces (sp : SentencePieceProcessor) (input : String) :
    List String :=
  sp.EncodeAsPieces input

/-- Embeds `encode_as_ids` in the source: ids rendered as decimal strings. -/
def encode_as_ids (sp : SentencePieceProcessor) (input : String) :
    List String :=
  (sp.EncodeAsIds input).map (fun i => toString i)

/-- The two values of `--output_format`. -/
inductive OutputFormat where
  | piece
  | id
deriving DecidableEq

/-- The encoder selection in `main` on `args.output_format`. -/
def modeEncode (sp : SentencePieceProcessor) :
    OutputFormat → String → List String
  | OutputFormat.piece => encode_as_pieces sp
  | OutputFormat.id => encode_as_ids sp

/-- Cuts a list into chunks of `c` elements (the last chunk may be shorter),
as `Pool.imap(..., chunksize=c)` cuts its iterable. -/
def chunked (c : Nat) (xs : List α) : List (List α) :=
  match xs with
  | [] => []
  | x :: rest => (x :: rest.take (c - 1)) :: chunked c (rest.drop (c - 1))
termination_by xs.length
decreasing_by simp [List.length_drop]; omega

/-- Runs the submitted chunks: chunk `i` is handled by worker `assign i`
using that worker's own function `fw (assign i)`, and the results are
concatenated in submission order, exactly the order `imap` yields them. -/
def chunkRun (fw : Nat → α → β) (assign : Nat → Nat) :
    Nat → List (List α) → List β
  | _, [] => []
  | i, ch :: rest => ch.map (fw (assign i)) ++ chunkRun fw assign (i + 1) rest

/-- The per-worker encoder: each pool worker loads the very same model file
`args.model` into its process-local state on startup, so every worker's
encoding function coincides with the driver's. -/
def workerEncode (encode : String → List String) (_w : Nat) :
    String → List String :=
  encode

/-- Embeds `Pool.imap`: an ordered parallel map. The iterable is cut into
fixed-size chunks, each chunk is computed by the worker the schedule `assign`
gives it, and results are consumed in FIFO submission order. -/
def imapOrdered (fw : Nat → α → β) (assign : Nat → Nat) (c : Nat)
    (xs : List α) : List β :=
  chunkRun fw assign 0 (chunked c xs)

/-- The processing pipeline of `main` with the worker pool made explicit:
results come from `imapOrdered` over chunks of 500 rows under an arbitrary
chunk-to-worker schedule `assign`, as in the source's
`p.imap(partial(encode_lines, encode, valid), list(zip(*inputs)), chunksize=500)`. -/
def runPool (encode : String → List String) (args : Args)
    (assign : Nat → Nat) (inputs : List (List String)) (nouts : Nat) :
    Stats × List (List String) :=
  consume args.keep_empty
    (imapOrdered
      (fun w => encode_lines (workerEncode encode w) (mkValid args))
      assign 500 (zipRows inputs))
    (⟨0, 0⟩, List.replicate nouts [])

/-- A concrete toy model for the end-to-end example of the spec: it
tokenizes the line hello world into 2 pieces and the line a into 1 piece. -/
def toySP : SentencePieceProcessor :=
  ⟨fun s =>
    if s = "hello world" then ["hello", "world"]
    else if s = "a" then ["a"]
    else [s],
   fun _ => []⟩

/-- Python `s.split(c)` for a one-character separator, on character lists:
splitting the empty list gives one empty field, and every separator occurrence
opens a new field. -/
def splitOnChar (c : Char) : List Char → List (List Char)
  | [] => [[]]
  | x :: rest =>
    let r := splitOnChar c rest
    if x = c then [] :: r else (x :: r.headD []) :: r.tail

/-- Joining character lists with a single separator character between
consecutive fields; matches the character content of `" ".join(...)`. -/
def sepJoin (c : Char) (ts : List (List Char)) : List Char :=
  match ts with
  | [] => []
  | t :: ts => t ++ (ts.map (fun a => c :: a)).flatten

theorem encode_line_eq_spec (encode : String → List String)
    (valid : List String → Bool) (line : String) :
    encode_line encode valid line =
      (spec_position_output encode valid line,
       spec_position_filtered encode valid line,
       spec_position_empty line) := by
  unfold encode_line spec_position_output spec_position_filtered
    spec_position_empty
  by_cases h : (stripStr line).length = 0
  · simp [h]
  · have hpos : (stripStr line).length > 0 := Nat.pos_of_ne_zero h
    by_cases hv : valid (encode (stripStr line))
    · simp [h, hpos, hv]
    · simp [h, hpos, hv]

theorem encode_lines_eq_spec (encode : String → List String)
    (valid : List String → Bool) (lines : List String) :
    encode_lines encode valid lines =
      (lines.map (spec_position_output encode valid),
       lines.any (spec_position_filtered encode valid),
       lines.any (spec_position_empty)) := by
  induction lines with
  | nil => rfl
  | cons l ls ih =>
    simp only [encode_lines, List.map_cons, List.any_cons,
      encode_line_eq_spec encode valid] at ih ⊢
    rw [Prod.mk.injEq, Prod.mk.injEq] at ih
    exact Prod.ext (by simp [ih.1]) (Prod.ext (by simp [ih.2.1]) (by simp [ih.2.2]))

/-- C1: for every row, the encoder strips each line; an empty stripped line
yields the empty string marked empty; a non-empty line whose token sequence
passes the predicate yields the space-joined tokens; otherwise a `none`
placeholder marked filtered. The row's filtered flag is true iff ANY position
was filtered and its empty flag is true iff ANY position was empty. -/
theorem C1_encode_lines_per_position (encode : String → List String)
    (valid : List String → Bool) (lines : List String) :
    encode_lines encode valid lines =
      (lines.map (spec_position_output encode valid),
       lines.any (spec_position_filtered encode valid),
       lines.any (spec_position_empty)) :=
  encode_lines_eq_spec encode valid lines

theorem consume_counts (keep_empty : Bool)
    (rs : List (List (Option String) × Bool × Bool)) :
    ∀ (stats : Stats) (outs : List (List String)),
    (consume keep_empty rs (stats, outs)).1.num_filtered +
      (consume keep_empty rs (stats, outs)).1.num_empty +
      rs.countP (rowWritten keep_empty) =
    stats.num_filtered + stats.num_empty + rs.length := by
  induction rs with
  | nil => intro stats outs; simp [consume]
  | cons r rs ih =>
    intro stats outs
    have hc : consume keep_empty (r :: rs) (stats, outs) =
        consume keep_empty rs (step keep_empty (stats, outs) r) := rfl
    rw [hc, List.countP_cons, List.length_cons]
    by_cases hf : r.2.1 = true
    · have hs : step keep_empty (stats, outs) r =
          (⟨stats.num_empty, stats.num_filtered + 1⟩, outs) := by
        simp [step, hf]
      have hw : rowWritten keep_empty r = false := by simp [rowWritten, hf]
      rw [hs, hw, if_neg (by decide)]
      have H := ih ⟨stats.num_empty, stats.num_filtered + 1⟩ outs
      dsimp only at H
      omega
    · by_cases he : (r.2.2 && !keep_empty) = true
      · have hs : step keep_empty (stats, outs) r =
            (⟨stats.num_empty + 1, stats.num_filtered⟩, outs) := by
          simp [step, hf, he]
        have hw : rowWritten keep_empty r = false := by
          rw [Bool.and_eq_true, Bool.not_eq_true'] at he
          simp [rowWritten, hf, he.1, he.2]
        rw [hs, hw, if_neg (by decide)]
        have H := ih ⟨stats.num_empty + 1, stats.num_filtered⟩ outs
        dsimp only at H
        omega
      · have hs : step keep_empty (stats, outs) r =
            (stats, writeRow r.1 outs) := by
          simp [step, hf, he]
        have hw : rowWritten keep_empty r = true := by
          cases h2 : r.2.2 <;> cases hk : keep_empty <;>
            simp_all [rowWritten]
        rw [hs, hw, if_pos rfl]
        have H := ih stats (writeRow r.1 outs)
        omega

/-- C2: the aggregator takes exactly one of three mutually exclusive actions
per row, filtered taking precedence over empty; counters change by at most
one per row; and over a whole run starting from zero counters,
num_filtered + num_empty + rows-written equals the number of rows consumed. -/
theorem C2_aggregator_cases
    (keep_empty : Bool) (stats : Stats) (outputs : List (List String))
    (res : List (Option String) × Bool × Bool)
    (rs : List (List (Option String) × Bool × Bool))
    (outs0 : List (List String)) :
    (res.2.1 = true →
      step keep_empty (stats, outputs) res =
        ({ stats with num_filtered := stats.num_filtered + 1 }, outputs)) ∧
    (res.2.1 = false → res.2.2 = true → keep_empty = false →
      step keep_empty (stats, outputs) res =
        ({ stats with num_empty := stats.num_empty + 1 }, outputs)) ∧
    (res.2.1 = false → (res.2.2 = false ∨ keep_empty = true) →
      step keep_empty (stats, outputs) res =
        (stats, writeRow res.1 outputs)) ∧
    ((consume keep_empty rs (⟨0, 0⟩, outs0)).1.num_filtered +
       (consume keep_empty rs (⟨0, 0⟩, outs0)).1.num_empty +
       rs.countP (rowWritten keep_empty) = rs.length) := by
  refine ⟨?_, ?_, ?_, ?_⟩
  · intro hf; simp [step, hf]
  · intro hf he hk; simp [step, hf, he, hk]
  · intro hf hor
    rcases hor with he | hk
    · simp [step, hf, he]
    · simp [step, hf, hk]
  · have h := consume_counts keep_empty rs ⟨0, 0⟩ outs0
    simpa using h

/-- Witness for C2 at a concrete filtered row and a concrete two-row run. -/
theorem C2_aggregator_cases_witness :
    step false (⟨0, 0⟩, [[]]) ([none], true, false) =
      ({ num_empty := 0, num_filtered := 1 }, [[]]) ∧
    (consume false [([none], true, false), ([some ""], false, true)]
        (⟨0, 0⟩, [[]])).1.num_filtered +
      (consume false [([none], true, false), ([some ""], false, true)]
        (⟨0, 0⟩, [[]])).1.num_empty +
      [([none], true, false), ([some ""], false, true)].countP
        (rowWritten false) = 2 := by
  have h := C2_aggregator_cases false ⟨0, 0⟩ [[]] ([none], true, false)
    [([none], true, false), ([some ""], false, true)] [[]]
  exact ⟨h.1 rfl, h.2.2.2⟩

theorem valid_length_filter_iff (args : Args) (toks : List String) :
    valid_length_filter args toks = true ↔
      ((∀ m, args.min_len = some m → m ≤ (toks.length : Int)) ∧
       (∀ M, args.max_len = some M → (toks.length : Int) ≤ M)) := by
  cases hmin : args.min_len <;> cases hmax : args.max_len <;>
    simp [valid_length_filter, hmin, hmax]

theorem encode_lines_filtered_flag (encode : String → List String)
    (valid : List String → Bool) (row : List String) :
    (encode_lines encode valid row).2.1 =
      row.any (spec_position_filtered encode valid) := by
  rw [encode_lines_eq_spec]

theorem encode_lines_empty_flag (encode : String → List String)
    (valid : List String → Bool) (row : List String) :
    (encode_lines encode valid row).2.2 =
      row.any (spec_position_empty) := by
  rw [encode_lines_eq_spec]

/-- C3: the length predicate accepts a token sequence iff its length is
within the inclusive bounds (absent bounds never reject); and a row with a
line whose token count falls strictly outside the bounds is marked filtered,
contributes nothing to any output stream, and bumps the filtered counter by
exactly one. -/
theorem C3_length_filter
    (args : Args) (toks : List String) (encode : String → List String)
    (row : List String) (stats : Stats) (outputs : List (List String)) :
    (valid_length_filter args toks = true ↔
      ((∀ m, args.min_len = some m → m ≤ (toks.length : Int)) ∧
       (∀ M, args.max_len = some M → (toks.length : Int) ≤ M))) ∧
    ((∃ l ∈ row, 0 < (stripStr l).length ∧
        ((∃ m, args.min_len = some m ∧
            ((encode (stripStr l)).length : Int) < m) ∨
         (∃ M, args.max_len = some M ∧
            (M : Int) < ((encode (stripStr l)).length : Int)))) →
      step args.keep_empty (stats, outputs)
          (encode_lines encode (mkValid args) row) =
        (⟨stats.num_empty, stats.num_filtered + 1⟩, outputs)) := by
  constructor
  · exact valid_length_filter_iff args toks
  · rintro ⟨l, hmem, hpos, hbound⟩
    have hsome : (args.min_len.isSome || args.max_len.isSome) = true := by
      rcases hbound with ⟨m, hm, _⟩ | ⟨M, hM, _⟩
      · simp [hm]
      · simp [hM]
    have hmk : mkValid args = valid_length_filter args := by
      simp [mkValid, hsome]
    have hinvalid : valid_length_filter args (encode (stripStr l)) = false := by
      rw [Bool.eq_false_iff]
      intro hvalid
      rw [valid_length_filter_iff] at hvalid
      rcases hbound with ⟨m, hm, hlt⟩ | ⟨M, hM, hlt⟩
      · have := hvalid.1 m hm; omega
      · have := hvalid.2 M hM; omega
    have hfl : spec_position_filtered encode (mkValid args) l = true := by
      rw [hmk]
      simp [spec_position_filtered, hinvalid, Nat.pos_iff_ne_zero.mp hpos]
    have hf : (encode_lines encode (mkValid args) row).2.1 = true := by
      rw [encode_lines_filtered_flag]
      exact List.any_eq_true.mpr ⟨l, hmem, hfl⟩
    simp [step, hf]

/-- Witness for C3: `--min-len 2` with a one-token line is filtered. -/
theorem C3_length_filter_witness :
    step false (⟨0, 0⟩, [[]])
        (encode_lines (fun _ => ["a"]) (mkValid ⟨some 2, none, false⟩)
          ["a"]) =
      (⟨0, 1⟩, [[]]) := by
  have h := C3_length_filter ⟨some 2, none, false⟩ [] (fun _ => ["a"])
    ["a"] ⟨0, 0⟩ [[]]
  exact h.2 ⟨"a", by simp, by decide, Or.inl ⟨2, rfl, by decide⟩⟩

/-- C10: the empty check precedes tokenization: a line empty after stripping
is never subjected to the length predicate and never marked filtered, whatever
the configured bounds; an all-empty row never bumps the filtered counter. -/
theorem C10_empty_precedes_filter
    (encode : String → List String) (args : Args) (line : String)
    (row : List String) (stats : Stats) (outputs : List (List String)) :
    ((stripStr line).length = 0 →
      encode_line encode (mkValid args) line = (some "", false, true)) ∧
    ((∀ l ∈ row, (stripStr l).length = 0) →
      (encode_lines encode (mkValid args) row).2.1 = false ∧
      (step args.keep_empty (stats, outputs)
          (encode_lines encode (mkValid args) row)).1.num_filtered =
        stats.num_filtered) := by
  constructor
  · intro h
    simp [encode_line, h]
  · intro hall
    have hf : (encode_lines encode (mkValid args) row).2.1 = false := by
      rw [encode_lines_filtered_flag]
      rw [List.any_eq_false]
      intro l hl
      simp [spec_position_filtered, hall l hl]
    refine ⟨hf, ?_⟩
    by_cases he :
        ((encode_lines encode (mkValid args) row).2.2 &&
          !args.keep_empty) = true
    · simp [step, hf, he]
    · simp [step, hf, he]

/-- Witness for C10: a whitespace-only line with `--min-len 1` takes the
empty branch, not the filtered one. -/
theorem C10_empty_precedes_filter_witness :
    encode_line (fun _ => []) (mkValid ⟨some 1, none, false⟩) " " =
      (some "", false, true) ∧
    (step false (⟨0, 0⟩, [[]])
        (encode_lines (fun _ => []) (mkValid ⟨some 1, none, false⟩)
          [" "])).1.num_filtered = 0 := by
  have h := C10_empty_precedes_filter (fun _ => [])
    ⟨some 1, none, false⟩ " " [" "] ⟨0, 0⟩ [[]]
  exact ⟨h.1 (by decide), (h.2 (by intro l hl; simp at hl; rw [hl]; decide)).2⟩

theorem writeRow_cons (e : Option String) (es : List (Option String))
    (o : List String) (os : List (List String)) :
    writeRow (e :: es) (o :: os) = (o ++ [pyShow e]) :: writeRow es os := rfl

theorem writeRow_all_empty :
    ∀ (es : List (Option String)) (outputs : List (List String)),
    (∀ e ∈ es, e = some "") → es.length = outputs.length →
    writeRow es outputs = outputs.map (fun o => o ++ [""]) := by
  intro es
  induction es with
  | nil =>
    intro outputs _ hlen
    cases outputs with
    | nil => rfl
    | cons o os => simp at hlen
  | cons e es ih =>
    intro outputs hall hlen
    cases outputs with
    | nil => simp at hlen
    | cons o os =>
      rw [writeRow_cons, List.map_cons]
      have he : e = some "" := hall e (by simp)
      rw [he]
      have : writeRow es os = os.map (fun o => o ++ [""]) := by
        refine ih os (fun x hx => hall x (by simp [hx])) ?_
        simpa using hlen
      rw [this]
      rfl

/-- C4: a row whose every line is empty after stripping yields empty strings
at every position; with keep-empty off nothing is written and the empty
counter bumps by one; with keep-empty on an empty line is written to each
output stream and the counter is unchanged. -/
theorem C4_all_empty_row
    (encode : String → List String) (valid : List String → Bool)
    (row : List String) (stats : Stats) (outputs : List (List String)) :
    row ≠ [] → (∀ l ∈ row, (stripStr l).length = 0) →
    (encode_lines encode valid row).1 = row.map (fun _ => some "") ∧
    (encode_lines encode valid row).2.1 = false ∧
    (encode_lines encode valid row).2.2 = true ∧
    (step false (stats, outputs) (encode_lines encode valid row) =
      (⟨stats.num_empty + 1, stats.num_filtered⟩, outputs)) ∧
    (outputs.length = row.length →
      step true (stats, outputs) (encode_lines encode valid row) =
        (stats, outputs.map (fun o => o ++ [""]))) := by
  intro hne hall
  have houts : (encode_lines encode valid row).1 =
      row.map (fun _ => some "") := by
    rw [encode_lines_eq_spec]
    exact List.map_congr_left (fun l hl => by
      simp [spec_position_output, hall l hl])
  have hf : (encode_lines encode valid row).2.1 = false := by
    rw [encode_lines_filtered_flag, List.any_eq_false]
    intro l hl
    simp [spec_position_filtered, hall l hl]
  have he : (encode_lines encode valid row).2.2 = true := by
    rw [encode_lines_empty_flag, List.any_eq_true]
    rcases row with _ | ⟨l, ls⟩
    · exact absurd rfl hne
    · exact ⟨l, by simp, by simp [spec_position_empty, hall l (by simp)]⟩
  refine ⟨houts, hf, he, ?_, ?_⟩
  · simp [step, hf, he]
  · intro hlen
    have hw : step true (stats, outputs) (encode_lines encode valid row) =
        (stats, writeRow (encode_lines encode valid row).1 outputs) := by
      simp [step, hf, he]
    rw [hw, houts]
    rw [writeRow_all_empty (row.map (fun _ => some "")) outputs
      (by
        intro e hE
        obtain ⟨a, _, ha⟩ := List.mem_map.mp hE
        exact ha.symm)
      (by simpa using hlen.symm)]

/-- Witness for C4 at the one-file row with a whitespace-only line. -/
theorem C4_all_empty_row_witness :
    (encode_lines (fun s => [s]) (fun _ => true) ["  "]).1 = [some ""] ∧
    step false (⟨0, 0⟩, [["x"]])
        (encode_lines (fun s => [s]) (fun _ => true) ["  "]) =
      (⟨1, 0⟩, [["x"]]) ∧
    step true (⟨0, 0⟩, [["x"]])
        (encode_lines (fun s => [s]) (fun _ => true) ["  "]) =
      (⟨0, 0⟩, [["x", ""]]) := by
  have h := C4_all_empty_row (fun s => [s]) (fun _ => true) ["  "]
    ⟨0, 0⟩ [["x"]] (by decide)
    (by intro l hl; simp at hl; rw [hl]; decide)
  exact ⟨h.1, h.2.2.2.1, by rw [h.2.2.2.2 (by decide)]; rfl⟩

theorem foldl_min_le_init (fs : List (List String)) :
    ∀ a : Nat, fs.foldl (fun x g => min x g.length) a ≤ a := by
  induction fs with
  | nil => intro a; simp
  | cons g fs ih =>
    intro a
    simp only [List.foldl_cons]
    exact le_trans (ih (min a g.length)) (min_le_left _ _)

theorem foldl_min_le_mem (fs : List (List String)) :
    ∀ (a : Nat) (g : List String), g ∈ fs →
      fs.foldl (fun x h => min x h.length) a ≤ g.length := by
  induction fs with
  | nil => intro a g hg; simp at hg
  | cons f fs ih =>
    intro a g hg
    simp only [List.foldl_cons]
    rcases List.mem_cons.mp hg with h | h
    · subst h; exact le_trans (foldl_min_le_init fs _) (min_le_right _ _)
    · exact ih _ g h

theorem foldl_min_attained (fs : List (List String)) :
    ∀ a : Nat, fs.foldl (fun x g => min x g.length) a = a ∨
      ∃ g ∈ fs, fs.foldl (fun x g => min x g.length) a = g.length := by
  induction fs with
  | nil => intro a; left; rfl
  | cons f fs ih =>
    intro a
    simp only [List.foldl_cons]
    rcases ih (min a f.length) with h | ⟨g, hg, h⟩
    · by_cases hle : a ≤ f.length
      · left; rw [h, min_eq_left hle]
      · right
        exact ⟨f, by simp, by rw [h, min_eq_right (le_of_not_le hle)]⟩
    · right; exact ⟨g, by simp [hg], h⟩

theorem minLen_le (files : List (List String)) (f : List String)
    (hf : f ∈ files) : minLen files ≤ f.length := by
  cases files with
  | nil => simp at hf
  | cons f0 fs =>
    rcases List.mem_cons.mp hf with h | h
    · subst h; exact foldl_min_le_init fs _
    · exact foldl_min_le_mem fs _ f h

theorem minLen_attained (files : List (List String)) (h : files ≠ []) :
    ∃ f ∈ files, minLen files = f.length := by
  cases files with
  | nil => exact absurd rfl h
  | cons f0 fs =>
    rcases foldl_min_attained fs f0.length with h0 | ⟨g, hg, h0⟩
    · exact ⟨f0, by simp, h0⟩
    · exact ⟨g, by simp [hg], h0⟩

theorem zipRows_length (files : List (List String)) :
    (zipRows files).length = minLen files := by
  simp [zipRows]

theorem foldl_min_const :
    ∀ (fs : List (List String)) (a : Nat), (∀ g ∈ fs, g.length = a) →
      fs.foldl (fun x g => min x g.length) a = a := by
  intro fs
  induction fs with
  | nil => intro a _; rfl
  | cons f fs ih =>
    intro a h
    simp only [List.foldl_cons]
    rw [h f (by simp), min_self]
    exact ih a (fun g hg => h g (by simp [hg]))

theorem minLen_take (files : List (List String)) :
    minLen (files.map (fun f => f.take (minLen files))) = minLen files := by
  cases files with
  | nil => rfl
  | cons f0 fs =>
    show (fs.map (fun f => f.take (minLen (f0 :: fs)))).foldl
        (fun x g => min x g.length)
        (f0.take (minLen (f0 :: fs))).length = minLen (f0 :: fs)
    have h0 : (f0.take (minLen (f0 :: fs))).length = minLen (f0 :: fs) := by
      rw [List.length_take]
      exact min_eq_left (minLen_le (f0 :: fs) f0 (by simp))
    rw [h0]
    refine foldl_min_const _ _ ?_
    intro g hg
    obtain ⟨g0, hg0, rfl⟩ := List.mem_map.mp hg
    rw [List.length_take]
    exact min_eq_left (minLen_le (f0 :: fs) g0 (by simp [hg0]))

theorem zipRows_take (files : List (List String)) :
    zipRows (files.map (fun f => f.take (minLen files))) = zipRows files := by
  unfold zipRows
  rw [minLen_take]
  refine List.map_congr_left ?_
  intro i hi
  rw [List.mem_range] at hi
  rw [List.map_map]
  refine List.map_congr_left ?_
  intro f hf
  show (f.take (minLen files)).getD i "" = f.getD i ""
  rw [List.getD_eq_getElem?_getD, List.getD_eq_getElem?_getD,
    List.getElem?_take_of_lt hi]

theorem runMain_truncated (encode : String → List String) (args : Args)
    (files : List (List String)) (nouts : Nat) :
    runMain encode args (files.map (fun f => f.take (minLen files))) nouts =
      runMain encode args files nouts := by
  unfold runMain
  rw [zipRows_take]

/-- C8: with unequal input files the number of rows processed is the line
count of the shortest file; trailing lines of longer files are silently
ignored: truncating every file to the shortest length changes neither the
written output nor the counters. -/
theorem C8_zip_truncates (files : List (List String)) :
    files ≠ [] →
    ((∀ f ∈ files, (zipRows files).length ≤ f.length) ∧
     (∃ f ∈ files, (zipRows files).length = f.length) ∧
     (∀ (encode : String → List String) (args : Args) (nouts : Nat),
       runMain encode args files nouts =
         runMain encode args
           (files.map (fun f => f.take (zipRows files).length)) nouts)) := by
  intro hne
  refine ⟨?_, ?_, ?_⟩
  · intro f hf
    rw [zipRows_length]
    exact minLen_le files f hf
  · obtain ⟨f, hf, h⟩ := minLen_attained files hne
    exact ⟨f, hf, by rw [zipRows_length]; exact h⟩
  · intro encode args nouts
    rw [zipRows_length]
    exact (runMain_truncated encode args files nouts).symm

/-- Witness for C8: two files of 2 and 1 lines process exactly 1 row. -/
theorem C8_zip_truncates_witness :
    (zipRows [["a", "b"], ["c"]]).length = 1 ∧
    runMain (fun s => [s]) ⟨none, none, false⟩ [["a", "b"], ["c"]] 2 =
      runMain (fun s => [s]) ⟨none, none, false⟩
        ([["a", "b"], ["c"]].map
          (fun f => f.take (zipRows [["a", "b"], ["c"]]).length)) 2 := by
  have h := C8_zip_truncates [["a", "b"], ["c"]] (by simp)
  exact ⟨by decide, h.2.2 (fun s => [s]) ⟨none, none, false⟩ 2⟩

/-- C7: when the `--inputs` and `--outputs` counts differ the program aborts
before reading input or writing output; when they match the check passes and
the pipeline runs. -/
theorem C7_io_count_check (encode : String → List String) (args : Args)
    (inputs : List (List String)) (noutputs : Nat) :
    (inputs.length ≠ noutputs →
      mainRun encode args inputs noutputs =
        Except.error "number of input and output paths should match") ∧
    (inputs.length = noutputs →
      mainRun encode args inputs noutputs =
        Except.ok (runMain encode args inputs noutputs)) := by
  constructor
  · intro h; simp [mainRun, h]
  · intro h; simp [mainRun, h]

/-- Witness for C7: one input with two outputs aborts; with one output it
runs. -/
theorem C7_io_count_check_witness :
    mainRun (fun s => [s]) ⟨none, none, false⟩ [[]] 2 =
      Except.error "number of input and output paths should match" ∧
    mainRun (fun s => [s]) ⟨none, none, false⟩ [[]] 1 =
      Except.ok (runMain (fun s => [s]) ⟨none, none, false⟩ [[]] 1) := by
  exact ⟨(C7_io_count_check (fun s => [s]) ⟨none, none, false⟩ [[]] 2).1
      (by decide),
    (C7_io_count_check (fun s => [s]) ⟨none, none, false⟩ [[]] 1).2 rfl⟩

theorem chunked_flatten_le (c : Nat) :
    ∀ (n : Nat) (xs : List α), xs.length ≤ n → (chunked c xs).flatten = xs := by
  intro n
  induction n with
  | zero =>
    intro xs h
    have hx : xs = [] := List.length_eq_zero.mp (Nat.le_zero.mp h)
    subst hx
    simp [chunked]
  | succ n ih =>
    intro xs h
    cases xs with
    | nil => simp [chunked]
    | cons x rest =>
      have heq : chunked c (x :: rest) =
          (x :: rest.take (c - 1)) :: chunked c (rest.drop (c - 1)) := by
        rw [chunked]
      rw [heq, List.flatten_cons,
        ih (rest.drop (c - 1)) (by rw [List.length_drop]; simp at h; omega),
        List.cons_append, List.take_append_drop]

theorem chunked_flatten (c : Nat) (xs : List α) :
    (chunked c xs).flatten = xs :=
  chunked_flatten_le c xs.length xs le_rfl

theorem chunkRun_const (fw : Nat → α → β) (assign : Nat → Nat) (g : α → β)
    (h : ∀ w, fw w = g) :
    ∀ (chs : List (List α)) (i : Nat),
      chunkRun fw assign i chs = (chs.flatten).map g := by
  intro chs
  induction chs with
  | nil => intro i; rfl
  | cons ch rest ih =>
    intro i
    show ch.map (fw (assign i)) ++ chunkRun fw assign (i + 1) rest = _
    rw [h (assign i), ih (i + 1), List.flatten_cons, List.map_append]

theorem imapOrdered_const (fw : Nat → α → β) (assign : Nat → Nat)
    (g : α → β) (h : ∀ w, fw w = g) (c : Nat) (xs : List α) :
    imapOrdered fw assign c xs = xs.map g := by
  unfold imapOrdered
  rw [chunkRun_const fw assign g h (chunked c xs) 0, chunked_flatten]

theorem runPool_eq_runMain (encode : String → List String) (args : Args)
    (assign : Nat → Nat) (inputs : List (List String)) (nouts : Nat) :
    runPool encode args assign inputs nouts =
      runMain encode args inputs nouts := by
  unfold runPool runMain
  rw [imapOrdered_const
    (fun w => encode_lines (workerEncode encode w) (mkValid args)) assign
    (encode_lines encode (mkValid args)) (fun _ => rfl) 500 (zipRows inputs)]

/-- C5: the rows written are the accepted rows in input order, independent of
the worker pool's size or scheduling: any chunk-to-worker schedule gives the
sequential result, so any two schedules (e.g. a 1-process and a 12-process
pool) produce identical output streams and identical final counters. -/
theorem C5_order_and_schedule_independence (encode : String → List String)
    (args : Args) (inputs : List (List String)) (nouts : Nat)
    (a1 a2 : Nat → Nat) :
    runPool encode args a1 inputs nouts = runMain encode args inputs nouts ∧
    runPool encode args a1 inputs nouts =
      runPool encode args a2 inputs nouts := by
  refine ⟨runPool_eq_runMain encode args a1 inputs nouts, ?_⟩
  rw [runPool_eq_runMain, runPool_eq_runMain]

/-- C6: on the input file lines hello world, an empty line, and a, with
`--min-len 2`, piece mode, and the toy model (2 pieces for hello world, 1
piece for a), exactly one line is written (the encoding of hello world), the
empty counter ends at 1 and the filtered counter at 1 - both sequentially and
with a one-worker schedule. -/
theorem C6_end_to_end :
    runMain (modeEncode toySP OutputFormat.piece) ⟨some 2, none, false⟩
        [["hello world", "", "a"]] 1 = (⟨1, 1⟩, [["hello world"]]) ∧
    runPool (modeEncode toySP OutputFormat.piece) ⟨some 2, none, false⟩
        (fun _ => 0) [["hello world", "", "a"]] 1 =
      (⟨1, 1⟩, [["hello world"]]) := by
  constructor
  · decide
  · rw [runPool_eq_runMain]
    decide

theorem splitOnChar_selfhead (c : Char) (rest : List Char) :
    splitOnChar c (c :: rest) = [] :: splitOnChar c rest := by
  simp [splitOnChar]

theorem splitOnChar_ne_head (c x : Char) (rest : List Char) (h : ¬ x = c) :
    splitOnChar c (x :: rest) =
      (x :: (splitOnChar c rest).headD []) :: (splitOnChar c rest).tail := by
  simp [splitOnChar, h]

theorem splitOnChar_not_mem (c : Char) :
    ∀ (a : List Char), c ∉ a → splitOnChar c a = [a] := by
  intro a
  induction a with
  | nil => intro _; rfl
  | cons x a ih =>
    intro h
    have hx : ¬ x = c := fun e => h (by rw [e]; exact List.mem_cons_self c a)
    have ha : splitOnChar c a = [a] :=
      ih (fun hc => h (List.mem_cons_of_mem _ hc))
    rw [splitOnChar_ne_head c x a hx, ha]
    rfl

theorem splitOnChar_append (c : Char) :
    ∀ (a rest : List Char), c ∉ a →
      splitOnChar c (a ++ c :: rest) = a :: splitOnChar c rest := by
  intro a
  induction a with
  | nil => intro rest _; simpa using splitOnChar_selfhead c rest
  | cons x a ih =>
    intro rest h
    have hx : ¬ x = c := fun e => h (by rw [e]; exact List.mem_cons_self c a)
    have ha : splitOnChar c (a ++ c :: rest) = a :: splitOnChar c rest :=
      ih rest (fun hc => h (List.mem_cons_of_mem _ hc))
    rw [List.cons_append, splitOnChar_ne_head c x _ hx, ha]
    rfl

theorem sepJoin_cons_cons (c : Char) (t t2 : List Char)
    (ts : List (List Char)) :
    sepJoin c (t :: t2 :: ts) = t ++ c :: sepJoin c (t2 :: ts) := by
  simp [sepJoin]

theorem splitOnChar_sepJoin (c : Char) :
    ∀ (ts : List (List Char)) (t : List Char), c ∉ t → (∀ a ∈ ts, c ∉ a) →
      splitOnChar c (sepJoin c (t :: ts)) = t :: ts := by
  intro ts
  induction ts with
  | nil =>
    intro t ht _
    have hj : sepJoin c [t] = t := by simp [sepJoin]
    rw [hj, splitOnChar_not_mem c t ht]
  | cons t2 ts ih =>
    intro t ht hts
    rw [sepJoin_cons_cons, splitOnChar_append c t _ ht,
      ih t2 (hts t2 (by simp)) (fun a ha => hts a (by simp [ha]))]

theorem intercalate_go_data (s : String) :
    ∀ (as : List String) (acc : String),
      (String.intercalate.go acc s as).data =
        acc.data ++ (as.map (fun a => s.data ++ a.data)).flatten := by
  intro as
  induction as with
  | nil => intro acc; simp [String.intercalate.go]
  | cons a as ih =>
    intro acc
    rw [String.intercalate.go, ih (acc ++ s ++ a)]
    simp

theorem intercalate_data (toks : List String) (h : toks ≠ []) :
    (String.intercalate " " toks).data =
      sepJoin ' ' (toks.map String.data) := by
  cases toks with
  | nil => exact absurd rfl h
  | cons t ts =>
    have hgo : String.intercalate " " (t :: ts) =
        String.intercalate.go t " " ts := by
      rw [String.intercalate]
    rw [hgo, intercalate_go_data " " ts t]
    have hs : (" " : String).data = [' '] := rfl
    simp only [sepJoin, List.map_cons, List.map_map, hs, Function.comp_def,
      List.singleton_append]

theorem split_intercalate_length (toks : List String) (h : toks ≠ [])
    (hn : ∀ t ∈ toks, ' ' ∉ t.data) :
    (splitOnChar ' ' ((String.intercalate " " toks).data)).length =
      toks.length := by
  rw [intercalate_data toks h]
  cases toks with
  | nil => exact absurd rfl h
  | cons t ts =>
    rw [List.map_cons, splitOnChar_sepJoin ' ' (ts.map String.data) t.data
      (hn t (by simp))
      (fun a ha => by
        obtain ⟨x, hx, rfl⟩ := List.mem_map.mp ha
        exact hn x (by simp [hx]))]
    simp

/-- C9: for a line that is non-empty after stripping and whose token
sequence passes the length predicate, the written output line splits on
spaces into exactly as many tokens as the model returned for the stripped
line, in both piece and id output modes, given the model guarantee that
tokens contain no literal space (sentencepiece renders spaces as U+2581, and
decimal id strings are space-free). -/
theorem C9_token_count (sp : SentencePieceProcessor)
    (valid : List String → Bool) (mode : OutputFormat) (line : String) :
    0 < (stripStr line).length →
    valid (modeEncode sp mode (stripStr line)) = true →
    modeEncode sp mode (stripStr line) ≠ [] →
    (∀ t ∈ modeEncode sp mode (stripStr line), ' ' ∉ t.data) →
    ∃ out, (encode_line (modeEncode sp mode) valid line).1 = some out ∧
      (splitOnChar ' ' out.data).length =
        (modeEncode sp mode (stripStr line)).length := by
  intro hpos hvalid hne hns
  refine ⟨String.intercalate " " (modeEncode sp mode (stripStr line)),
    ?_, ?_⟩
  · simp [encode_line, hpos, hvalid]
  · exact split_intercalate_length _ hne hns

/-- Witness for C9 at a toy two-piece model in piece mode. -/
theorem C9_token_count_witness :
    ∃ out,
      (encode_line (modeEncode ⟨fun _ => ["ab", "cd"], fun _ => []⟩
          OutputFormat.piece) (fun _ => true) "z").1 = some out ∧
      (splitOnChar ' ' out.data).length =
        (modeEncode ⟨fun _ => ["ab", "cd"], fun _ => []⟩ OutputFormat.piece
          (stripStr "z")).length := by
  exact C9_token_count ⟨fun _ => ["ab", "cd"], fun _ => []⟩ (fun _ => true)
    OutputFormat.piece "z" (by decide) rfl (by decide) (by decide)

end Spm
